import Mathlib

/-!
Formal model of the SFMLInGameConsole repository: the Quake-style console
engine contract (registries, typed invocation, CVar bindings, history) and
the SFML widget code (`src/src/SFMLInGameConsole.cpp`,
`src/include/ConsoleBuffer.hpp`, `src/demos/sfmlDemo.cpp`).

The widget sources are embedded directly.  The engine collaborator
(`QuakeStyleConsole.h`) is not part of the source tree, so its operations are
modelled from the specification (each such definition is marked
"Modelled from the spec:").  C++ `std::istream` extraction semantics, which
the demo's `MyStruct::operator>>` and the CVar machinery rely on, are modelled
explicitly (skip whitespace; a failed numeric extraction writes 0 and sets the
fail state; extraction on a failed stream is a no-op).
-/

/-- C ``isspace`` (default locale), as used by the console sources:
space, tab, newline, vertical tab, form feed, carriage return. -/
def isWsChar (c : Char) : Bool :=
  c == ' ' || c == '\t' || c == '\n' || c == '\x0b' || c == '\x0c' || c == '\r'

/-- Whitespace tokenizer accumulator: `cur` holds the current in-progress
word reversed. -/
def tokAux : List Char → List Char → List String
  | [], cur => if cur.isEmpty then [] else [String.mk cur.reverse]
  | c :: cs, cur =>
    if isWsChar c then
      if cur.isEmpty then tokAux cs [] else String.mk cur.reverse :: tokAux cs []
    else
      tokAux cs (c :: cur)

/-- Modelled from the spec: the ConsoleEngine tokenizes an input line on
whitespace into a transient token sequence (§4.5 step 1). -/
def tokenize (s : String) : List String :=
  tokAux s.data []

/-- Function `GetFirstWord` from `src/src/SFMLInGameConsole.cpp`: extract the first
whitespace-delimited word of a string via `istream >> firstWord`; the result
is the empty string when the input holds no word. -/
def GetFirstWord (s : String) : String :=
  match tokenize s with
  | [] => ""
  | w :: _ => w

/-- Model of a `std::istream` reading from a string: the characters not yet
consumed, and the fail state. -/
structure IStream where
  input : List Char
  fail : Bool
deriving DecidableEq, Repr

def IStream.ofString (s : String) : IStream :=
  ⟨s.data, false⟩

/-- Numeric value of a decimal digit character. -/
def digitVal (c : Char) : Nat :=
  c.toNat - 48

/-- Decimal digit character for `d < 10`. -/
def digitChar (d : Nat) : Char :=
  Char.ofNat (48 + d)

/-- The `num_get` phase of `istream >> (int&)`: an optional sign followed by
decimal digits.  On failure the target is set to 0 (C++11) and the fail state
is set. -/
def extractIntDigits (l : List Char) (neg : Bool) : IStream × Int :=
  let digs := l.takeWhile Char.isDigit
  if digs.isEmpty then (⟨l, true⟩, 0)
  else
    let n : Nat := digs.foldl (fun a ch => 10 * a + digitVal ch) 0
    (⟨l.drop digs.length, false⟩, if neg then -(n : Int) else (n : Int))

/-- Extraction `istream >> (int&)`: no-op on a failed stream; the sentry skips
whitespace and fails (leaving the target `cur` unchanged) on end of input;
otherwise `num_get` runs (writing 0 to the target if no digits follow). -/
def extractInt (st : IStream) (cur : Int) : IStream × Int :=
  if st.fail then (st, cur)
  else
    match st.input.dropWhile isWsChar with
    | [] => (⟨[], true⟩, cur)
    | c :: cs =>
      if c = '-' then extractIntDigits cs true
      else if c = '+' then extractIntDigits cs false
      else extractIntDigits (c :: cs) false

/-- Extraction `istream >> (std::string&)`: no-op on a failed stream; the sentry skips
whitespace and fails (leaving the target unchanged) on end of input;
otherwise the next whitespace-delimited word replaces the target. -/
def extractString (st : IStream) (cur : String) : IStream × String :=
  if st.fail then (st, cur)
  else
    match st.input.dropWhile isWsChar with
    | [] => (⟨[], true⟩, cur)
    | c :: cs =>
      let w := (c :: cs).takeWhile (fun ch => !(isWsChar ch))
      (⟨(c :: cs).drop w.length, false⟩, String.mk w)

/-- Decimal digit characters of `n`, most significant first (the fuel
argument only drives the recursion; `n + 1` fuel always suffices). -/
def natReprAux : Nat → Nat → List Char
  | 0, _ => []
  | fuel + 1, n =>
    if n < 10 then [digitChar n]
    else natReprAux fuel (n / 10) ++ [digitChar (n % 10)]

/-- Decimal representation of a natural number, as `ostream << n` prints it. -/
def natReprChars (n : Nat) : List Char :=
  natReprAux (n + 1) n

/-- Decimal representation of an integer, as `ostream << i` prints it. -/
def intReprChars (i : Int) : List Char :=
  if i < 0 then '-' :: natReprChars i.natAbs else natReprChars i.toNat

def natRepr (n : Nat) : String :=
  String.mk (natReprChars n)

def intRepr (i : Int) : String :=
  String.mk (intReprChars i)

/-- Type `MyStruct` from `src/demos/sfmlDemo.cpp`: an `int` id and a `string`
name, bound to the console as the CVar `varCustom`. -/
structure MyStruct where
  id : Int
  name : String
deriving DecidableEq, Repr

/-- Operator `MyStruct::operator>>` from `src/demos/sfmlDemo.cpp`:
`is >> obj.id >> obj.name`, extracting field by field directly into the
object. -/
def myStructExtract (st : IStream) (obj : MyStruct) : IStream × MyStruct :=
  let ri := extractInt st obj.id
  let rn := extractString ri.1 obj.name
  (rn.1, ⟨ri.2, rn.2⟩)

/-- The types bindable as CVars in the demo (`src/demos/sfmlDemo.cpp`):
`int varInt`, `std::string varStr`, `MyStruct varCustom`. -/
inductive CVarValue
  | vInt (n : Int)
  | vString (s : String)
  | vStruct (id : Int) (name : String)
deriving DecidableEq, Repr

/-- Modelled from the spec: `CVarBinding.SetFromString` (§4.2) — the token
is parsed into the variable's type by stream-style extraction, mutating the
externally owned storage directly; the returned flag is `false` when the
parse failed (the engine reports `ParseError{raw: token}`).
`MyStruct::operator<<` / `operator>>` are taken from `src/demos/sfmlDemo.cpp`.
-/
def setFromString (v : CVarValue) (s : String) : CVarValue × Bool :=
  match v with
  | .vInt n =>
    let r := extractInt (IStream.ofString s) n
    (.vInt r.2, !r.1.fail)
  | .vString w =>
    let r := extractString (IStream.ofString s) w
    (.vString r.2, !r.1.fail)
  | .vStruct i nm =>
    let r := myStructExtract (IStream.ofString s) ⟨i, nm⟩
    (.vStruct r.2.id r.2.name, !r.1.fail)

/-- Modelled from the spec: `CVarBinding.GetAsString` (§4.2) — format the
current value with `ostream <<`.  The composite case follows
`MyStruct::operator<<` from `src/demos/sfmlDemo.cpp`:
`os << "ID: " << obj.id << ", Name: " << obj.name`. -/
def getAsString (v : CVarValue) : String :=
  match v with
  | .vInt n => intRepr n
  | .vString s => s
  | .vStruct i nm => "ID: " ++ intRepr i ++ ", Name: " ++ nm

/-- Parameter types a bound callable can declare (the demo uses `int`;
`string` stands for the other stream-extractable scalar). -/
inductive PType
  | pInt
  | pString
deriving DecidableEq, Repr

/-- A parsed argument. -/
inductive Arg
  | aInt (n : Int)
  | aString (s : String)
deriving DecidableEq, Repr

/-- Modelled from the spec: the `InvokeError` taxonomy of §4.1/§7. -/
inductive InvokeError
  | arityMismatch (expected got : Nat)
  | argumentParseError (index : Nat) (raw : String)
  | invocationFailed
deriving DecidableEq, Repr

/-- Modelled from the spec: `TypedInvoker` (§4.1) — the declared
parameter-type list fixed at registration, and the erased callable.  The
callable's observable effect is the list of lines it writes to the console
sink (as the demo's `sum` command does). -/
structure TypedInvoker where
  params : List PType
  callable : List Arg → List String

/-- Parse one token to one declared parameter type via stream extraction. -/
def parseArg : PType → String → Option Arg
  | .pInt, t =>
    let r := extractInt (IStream.ofString t) 0
    if r.1.fail then none else some (.aInt r.2)
  | .pString, t =>
    let r := extractString (IStream.ofString t) ""
    if r.1.fail then none else some (.aString r.2)

/-- Parse tokens left to right against the parameter list; the first failing
token at (absolute) index `i` yields `ArgumentParseError{index: i, raw}`.
`tryInvoke` checks the arity first, so the mismatched-length arm is
unreachable from it. -/
def parseArgsFrom (i : Nat) : List PType → List String → Except InvokeError (List Arg)
  | [], [] => .ok []
  | p :: ps, t :: ts =>
    match parseArg p t with
    | none => .error (.argumentParseError i t)
    | some a =>
      match parseArgsFrom (i + 1) ps ts with
      | .error e => .error e
      | .ok rest => .ok (a :: rest)
  | _, _ => .error (.arityMismatch 0 0)

/-- Modelled from the spec: `TypedInvoker.TryInvoke` (§4.1) — arity check,
then per-parameter conversion; only when every token converts is the
callable invoked (exactly once), its sink output being the `ok` payload. -/
def tryInvoke (inv : TypedInvoker) (tokens : List String) : Except InvokeError (List String) :=
  if tokens.length ≠ inv.params.length then
    .error (.arityMismatch inv.params.length tokens.length)
  else
    match parseArgsFrom 0 inv.params tokens with
    | .error e => .error e
    | .ok args => .ok (inv.callable args)

/-- The sink output produced by the callable during `TryInvoke`; empty
whenever the callable was not invoked. -/
def invokerOutput (inv : TypedInvoker) (tokens : List String) : List String :=
  match tryInvoke inv tokens with
  | .ok out => out
  | .error _ => []

/-- The demo's `sum` command (`src/demos/sfmlDemo.cpp`): two `int`
parameters; writes their sum to the console. -/
def sumInvoker : TypedInvoker :=
  ⟨[.pInt, .pInt], fun args =>
    match args with
    | [.aInt a, .aInt b] => [intRepr (a + b)]
    | _ => []⟩

/-- Modelled from the spec: `HistoryBuffer.Push` (§4.4) — append; if the
size would exceed the fixed capacity `n`, evict the oldest entry (index 0)
first.  `n = 0` disables history: `Push` is a no-op. -/
def historyPush (n : Nat) (buf : List String) (line : String) : List String :=
  if n = 0 then buf
  else if n < buf.length + 1 then buf.tail ++ [line]
  else buf ++ [line]

/-- Association-list lookup, modelling case-sensitive exact-match name
lookup in the command / CVar registries (§4.3). -/
def lookupAssoc {α : Type} : List (String × α) → String → Option α
  | [], _ => none
  | (k', v) :: rest, k => if k' = k then some v else lookupAssoc rest k

/-- Overwrite the value bound to key `k` (storage of an existing binding is
mutated in place; an absent key changes nothing). -/
def setAssoc {α : Type} : List (String × α) → String → α → List (String × α)
  | [], _, _ => []
  | (k', v) :: rest, k, nv =>
    if k' = k then (k', nv) :: rest else (k', v) :: setAssoc rest k nv

/-- Modelled from the spec: the outcome taxonomy of `Execute` (§4.5, §7). -/
inductive Outcome
  | commandRan
  | commandFailed (e : InvokeError)
  | varSet
  | varSetError
  | varRead
  | unknownIdentifier (name : String)
  | empty
deriving DecidableEq, Repr

/-- Modelled from the spec: the ConsoleEngine state — command registry,
CVar registry, and the bounded command history (§2, §3). -/
structure Engine where
  commands : List (String × TypedInvoker)
  cvars : List (String × CVarValue)
  historySize : Nat
  history : List String

/-- Result of one `Execute` call: the outcome, the updated engine state,
and the lines written to the output sink. -/
structure ExecResult where
  outcome : Outcome
  engine : Engine
  sinkOut : List String

/-- Human-readable diagnostic for an `InvokeError` (§7: every failure is
converted into one diagnostic line on the output sink). -/
def diagnostic : InvokeError → String
  | .arityMismatch expected got =>
    "expected " ++ natRepr expected ++ " arguments, got " ++ natRepr got
  | .argumentParseError index raw =>
    "could not parse argument " ++ natRepr index ++ ": " ++ raw
  | .invocationFailed => "command raised an error"

/-- Modelled from the spec: `ConsoleEngine.Execute` (§4.5) — tokenize the
line; an empty token list is a no-op (`Empty`, not recorded).  Otherwise
look the first token up as a command (dispatching the remaining tokens to
its `TypedInvoker`), then as a CVar (set from the joined remaining tokens
when non-empty, else write `name = value` to the sink), else report
`UnknownIdentifier`; every non-`Empty` outcome records the raw line to the
history buffer. -/
def commandExecute (eng : Engine) (line : String) : ExecResult :=
  match tokenize line with
  | [] => ⟨.empty, eng, []⟩
  | name :: rest =>
    match lookupAssoc eng.commands name with
    | some inv =>
      match tryInvoke inv rest with
      | .ok out =>
        ⟨.commandRan,
         { eng with history := historyPush eng.historySize eng.history line }, out⟩
      | .error e =>
        ⟨.commandFailed e,
         { eng with history := historyPush eng.historySize eng.history line },
         [diagnostic e]⟩
    | none =>
      match lookupAssoc eng.cvars name with
      | some v =>
        match rest with
        | [] =>
          ⟨.varRead,
           { eng with history := historyPush eng.historySize eng.history line },
           [name ++ " = " ++ getAsString v]⟩
        | _ :: _ =>
          if (setFromString v (String.intercalate " " rest)).2 then
            ⟨.varSet,
             { eng with
                cvars := setAssoc eng.cvars name (setFromString v (String.intercalate " " rest)).1,
                history := historyPush eng.historySize eng.history line }, []⟩
          else
            ⟨.varSetError,
             { eng with
                cvars := setAssoc eng.cvars name (setFromString v (String.intercalate " " rest)).1,
                history := historyPush eng.historySize eng.history line },
             ["failed to parse value " ++ String.intercalate " " rest]⟩
      | none =>
        ⟨.unknownIdentifier name,
         { eng with history := historyPush eng.historySize eng.history line },
         ["unknown identifier " ++ name]⟩

/-- The engine populated as in `src/demos/sfmlDemo.cpp`: command `sum` and
CVars `varInt = 1`, `varStr = "string"`, `varCustom = {2, "custom struct"}`
(history capacity 100 as in the widget constructor). -/
def demoEngine : Engine :=
  ⟨[("sum", sumInvoker)],
   [("varInt", .vInt 1), ("varStr", .vString "string"), ("varCustom", .vStruct 2 "custom")],
   100, []⟩

/-- The fields of `sfe::SFMLInGameConsole` that autocompletion reads: the
registered command names (`getCommandTable()` keys), the registered CVar
names (`getCVarReadTable()` keys), the per-command keyword map
(`cmd_keywords_`) and the input line (`buffer_text_`). -/
structure SFMLInGameConsoleState where
  commandTable : List String
  cvarReadTable : List String
  cmdKeywords : List (String × List String)
  bufferText : String

/-- Test that `pre` is an initial segment of `s` (character lists). -/
def startsWithChars : List Char → List Char → Bool
  | [], _ => true
  | _ :: _, [] => false
  | c :: cs, d :: ds => c = d && startsWithChars cs ds

/-- Model of `std::string::starts_with`: case-sensitive prefix test. -/
def strStartsWith (s pre : String) : Bool :=
  startsWithChars pre.data s.data

/-- Lexicographic comparison of character lists, modelling
`std::less<std::string>` as `std::sort` uses it. -/
def listCharLe : List Char → List Char → Bool
  | [], _ => true
  | _ :: _, [] => false
  | c :: cs, d :: ds => if c = d then listCharLe cs ds else decide (c < d)

/-- Lexicographic `≤` on strings, modelling `std::less<std::string>`. -/
def strLe (a b : String) : Bool :=
  listCharLe a.data b.data

/-- Method `SFMLInGameConsole::GetCandidatesForAutocomplete` from
`src/src/SFMLInGameConsole.cpp` (lines 298-335): with `is_first_word` the
command names starting with `cur_word`; otherwise the CVar names starting
with `cur_word` plus the keywords registered for the line's first-word
command; finally `std::sort`ed. -/
def GetCandidatesForAutocomplete (st : SFMLInGameConsoleState) (cur_word : String)
    (is_first_word : Bool) : List String :=
  let fromCommands :=
    if is_first_word then st.commandTable.filter (fun nm => strStartsWith nm cur_word) else []
  let fromCVars :=
    if !is_first_word then st.cvarReadTable.filter (fun nm => strStartsWith nm cur_word) else []
  let fromKeywords :=
    if !is_first_word then
      match lookupAssoc st.cmdKeywords (GetFirstWord st.bufferText) with
      | some kws => kws.filter (fun kw => strStartsWith kw cur_word)
      | none => []
    else []
  List.insertionSort (fun a b => strLe a b = true) (fromCommands ++ fromCVars ++ fromKeywords)

/-- The word-start scan of `SFMLInGameConsole::TextAutocompleteCallback`
(lines 340-347): walk left from the cursor until a whitespace character or
the start of the buffer. -/
def wordStartPos (buf : List Char) : Nat → Nat
  | 0 => 0
  | w + 1 => if isWsChar (buf.getD w ' ') then w + 1 else wordStartPos buf w

/-- The one-past-the-end index of the `std::all_of` range that computes
`is_first_word` (line 350): `buffer_text_.begin() + word_start_pos - 1`,
as a signed offset from `begin()`. -/
def allOfRangeEnd (buf : List Char) (cursor : Nat) : Int :=
  (wordStartPos buf cursor : Int) - 1

/-- The iterator range `[begin, begin + word_start_pos - 1)` is well formed
and reads only inside the buffer iff its end offset lies within `[0, size]`. -/
def iterRangeWellFormed (buf : List Char) (cursor : Nat) : Prop :=
  0 ≤ allOfRangeEnd buf cursor ∧ allOfRangeEnd buf cursor ≤ (buf.length : Int)

/-- Constant `kCommandBufferSize` from `src/src/SFMLInGameConsole.cpp` line 10. -/
def kCommandBufferSize : Nat := 100

/-- Constant `kCommandHistoryBufferSize` from `src/include/SFMLInGameConsole.hpp`
line 104, the declared default of the constructor's
`command_history_size` parameter. -/
def kCommandHistoryBufferSize : Nat := 100

set_option linter.unusedVariables false in
/-- History capacity produced by the constructor defined in
`src/src/SFMLInGameConsole.cpp` lines 49-52: it passes the fixed constant
`kCommandBufferSize` to `Virtuoso::QuakeStyleConsole`, taking no
`command_history_size` parameter at all (the two-parameter constructor the
header declares is never defined). -/
def constructedHistoryCapacity (command_history_size : Nat) : Nat :=
  kCommandBufferSize

/-- Struct `ConsoleBuffer::TextSequence` (`src/include/ConsoleBuffer.hpp`): an ANSI
color code (0, 30-37) and the text of the run. -/
structure TextSequence where
  color_code : Nat
  text : List Char
deriving DecidableEq, Repr

/-- Struct `ConsoleBuffer::Line`: one or more formatted text sequences. -/
structure BufLine where
  sequences : List TextSequence
deriving DecidableEq, Repr

/-- The `std::stringstream num_parse_stream` as `ConsoleBuffer` uses it:
digits are appended with `<<`, integers are pulled with `>>` from a read
position, and `.clear()` resets only the fail flag (C++ semantics: it does
not discard the accumulated characters). -/
structure NumStream where
  content : List Char
  readPos : Nat
  failbit : Bool
deriving DecidableEq, Repr

def NumStream.push (s : NumStream) (c : Char) : NumStream :=
  { s with content := s.content ++ [c] }

def NumStream.clearFlags (s : NumStream) : NumStream :=
  { s with failbit := false }

/-- Extraction `num_parse_stream >> x`: extraction from the current read position;
`none` when the stream was failed or no integer could be read. -/
def NumStream.extractIntNS (s : NumStream) : NumStream × Option Int :=
  if s.failbit then (s, none)
  else
    let r := extractInt ⟨s.content.drop s.readPos, false⟩ 0
    if r.1.fail then ({ s with failbit := true }, none)
    else ({ s with readPos := s.content.length - r.1.input.length }, some r.2)

/-- The `sfe::ConsoleBuffer` state (`src/include/ConsoleBuffer.hpp`). -/
structure ConsoleBuffer where
  cur_color_code : Nat
  parsing_ansi_code : Bool
  listening_digits : Bool
  num_parse_stream : NumStream
  lines : List BufLine
deriving DecidableEq, Repr

/-- Apply `f` to the last element of a list (the C++ code writes through
`lines[lines.size() - 1]` / `sequences[sequences.size() - 1]`). -/
def modifyLast {α : Type} (f : α → α) : List α → List α
  | [] => []
  | [a] => [f a]
  | a :: b :: rest => a :: modifyLast f (b :: rest)

/-- Method `ConsoleBuffer::ProcessANSICode` (lines 109-126): a known color code
replaces `cur_color_code`; anything else is reported and ignored. -/
def ProcessANSICode (st : ConsoleBuffer) (code : Int) : ConsoleBuffer :=
  if code = 0 ∨ code = 30 ∨ code = 31 ∨ code = 32 ∨ code = 33 ∨ code = 34 ∨
      code = 35 ∨ code = 36 ∨ code = 37 then
    { st with cur_color_code := code.toNat }
  else st

/-- Method `ConsoleBuffer::overflow` (lines 131-191), one character at a time.  In
the `';'` arm the C++ code feeds `x` to `ProcessANSICode` even when the
extraction failed (in which case `x` is 0 after a failed `num_get`, or
indeterminate after a failed sentry); the model uses 0 — `ProcessANSICode`
then leaves the color unchanged unless 0 happens to be a valid code, and
`lines` is untouched either way. -/
def overflow (st : ConsoleBuffer) (c : Char) : ConsoleBuffer :=
  if st.parsing_ansi_code then
    if c.isDigit && st.listening_digits then
      { st with num_parse_stream := st.num_parse_stream.push c }
    else if c = 'm' then
      let st1 := { st with parsing_ansi_code := false }
      let r := st1.num_parse_stream.extractIntNS
      let st2 :=
        match r.2 with
        | some x => ProcessANSICode { st1 with num_parse_stream := r.1 } x
        | none => { st1 with num_parse_stream := r.1 }
      let st3 := { st2 with num_parse_stream := st2.num_parse_stream.clearFlags }
      { st3 with
        lines := modifyLast
          (fun ln => ⟨ln.sequences ++ [⟨st3.cur_color_code, []⟩]⟩) st3.lines }
    else if c = '[' then
      { st with listening_digits := true,
                num_parse_stream := st.num_parse_stream.clearFlags }
    else if c = ';' then
      let r := st.num_parse_stream.extractIntNS
      ProcessANSICode { st with num_parse_stream := r.1.clearFlags } (r.2.getD 0)
    else
      { st with num_parse_stream := st.num_parse_stream.clearFlags,
                listening_digits := false, parsing_ansi_code := false }
  else
    if c = '\u001b' then
      { st with parsing_ansi_code := true,
                num_parse_stream := st.num_parse_stream.clearFlags }
    else if c = '\n' then
      { st with lines := st.lines ++ [⟨[⟨st.cur_color_code, []⟩]⟩] }
    else
      { st with
        lines := modifyLast
          (fun ln => ⟨modifyLast (fun sq => { sq with text := sq.text ++ [c] })
            ln.sequences⟩) st.lines }

/-- Method `ConsoleBuffer::clear` (lines 100-104): reset `lines` to a single line
holding one empty white sequence. -/
def ConsoleBuffer.clearBuf (st : ConsoleBuffer) : ConsoleBuffer :=
  { st with lines := [⟨[⟨37, []⟩]⟩] }

/-- Constructor `ConsoleBuffer::ConsoleBuffer` (lines 194-198): one line, one empty
white sequence. -/
def ConsoleBuffer.init : ConsoleBuffer :=
  ⟨37, false, false, ⟨[], 0, false⟩, [⟨[⟨37, []⟩]⟩]⟩

/-- The operations the claim quantifies over: characters written through
`overflow`, interleaved with `clear()` calls. -/
inductive BufOp
  | write (c : Char)
  | clearBuf

def applyBufOp (st : ConsoleBuffer) : BufOp → ConsoleBuffer
  | .write c => overflow st c
  | .clearBuf => st.clearBuf

/-- The structural invariant behind the unchecked indexing in
`CurrentLine()`, `CurSequence()` and `CurrentWord()`: there is always a
line, and every line has at least one sequence. -/
def GoodLines (ls : List BufLine) : Prop :=
  ls ≠ [] ∧ ∀ ln ∈ ls, ln.sequences ≠ []

/-! ## Theorems -/

/-- Folding `Push` from the empty buffer keeps exactly the last `n` pushed
lines, in push order. -/
theorem historyPush_foldl_eq_drop (n : Nat) (hn : 0 < n) (ls : List String) :
    ls.foldl (historyPush n) [] = ls.drop (ls.length - n) := by
  induction ls using List.reverseRecOn with
  | nil => simp
  | append_singleton ls x ih =>
    rw [List.foldl_append, List.foldl_cons, List.foldl_nil, ih]
    by_cases hlen : ls.length < n
    · have h1 : ls.length - n = 0 := by omega
      rw [h1, List.drop_zero]
      unfold historyPush
      rw [if_neg (by omega), if_neg (by omega)]
      have h2 : (ls ++ [x]).length - n = 0 := by
        rw [List.length_append]; simp; omega
      rw [h2, List.drop_zero]
    · have hlen2 : (ls.drop (ls.length - n)).length = n := by
        rw [List.length_drop]; omega
      unfold historyPush
      rw [if_neg (by omega), if_pos (by rw [hlen2]; omega), List.tail_drop]
      have h3 : (ls ++ [x]).length - n = ls.length - n + 1 := by
        rw [List.length_append]; simp; omega
      rw [h3, List.drop_append_of_le_length (by omega)]

/-- C2: after pushing `n + 1` lines into a history buffer of capacity
`n > 0` starting empty, the buffer holds exactly `n` entries, entry 0 is the
second pushed line, and in general the oldest entry was evicted first (the
final buffer is the pushed sequence minus its head). -/
theorem c2_history_capacity_fifo (n : Nat) (ls : List String) (hn : 0 < n)
    (hlen : ls.length = n + 1) :
    ls.foldl (historyPush n) [] = ls.tail
    ∧ (ls.foldl (historyPush n) []).length = n
    ∧ (ls.foldl (historyPush n) []).head? = ls.get? 1 := by
  have h := historyPush_foldl_eq_drop n hn ls
  rw [hlen] at h
  have e : n + 1 - n = 1 := by omega
  rw [e, List.drop_one] at h
  refine ⟨h, ?_, ?_⟩
  · rw [h, List.length_tail, hlen]; omega
  · rw [h]
    cases ls with
    | nil => rfl
    | cons a t => cases t <;> rfl

/-- Witness for C2: capacity 2, three pushed lines; the buffer ends holding
the last two. -/
theorem c2_history_capacity_fifo_witness :
    ["a", "b", "c"].foldl (historyPush 2) [] = ["b", "c"]
    ∧ (["a", "b", "c"].foldl (historyPush 2) []).length = 2 := by
  have h := c2_history_capacity_fifo 2 ["a", "b", "c"] (by decide) (by decide)
  exact ⟨h.1, h.2.1⟩

/-- C7: evaluation of the constructor defined in
`src/src/SFMLInGameConsole.cpp` at `command_history_size = 5` — the
resulting history capacity is the fixed `kCommandBufferSize = 100`, not 5:
the definition never forwards the declared parameter. -/
theorem c7_constructed_capacity_eval :
    constructedHistoryCapacity 5 = 100
    ∧ constructedHistoryCapacity 5 ≠ 5
    ∧ kCommandHistoryBufferSize = 100 := by decide

/-- C10: evaluation of the `is_first_word` iterator range at
`buffer_text_ = "cl"`, `cursor_pos_ = 2`: the current word starts at
position 0, so `begin() + word_start_pos - 1` is `begin() - 1` — the
`std::all_of` range is ill-formed and reads outside the buffer, contrary to
the claim. -/
theorem c10_first_word_range_eval :
    wordStartPos "cl".data 2 = 0
    ∧ allOfRangeEnd "cl".data 2 = -1
    ∧ ¬ iterRangeWellFormed "cl".data 2 := by
  refine ⟨by decide, by decide, ?_⟩
  intro h
  exact absurd (le_trans h.1 (le_refl _)) (by decide)

theorem listCharLe_total (a b : List Char) :
    listCharLe a b = true ∨ listCharLe b a = true := by
  induction a generalizing b with
  | nil => left; rfl
  | cons c cs ih =>
    cases b with
    | nil => right; rfl
    | cons d ds =>
      by_cases h : c = d
      · subst h
        simp only [listCharLe, if_pos rfl]
        exact ih ds
      · rcases lt_or_gt_of_ne h with hlt | hgt
        · left
          simp only [listCharLe, if_neg h, decide_eq_true_eq]
          exact hlt
        · right
          simp only [listCharLe]
          rw [if_neg (fun e : d = c => h e.symm)]
          simpa using hgt

theorem listCharLe_trans (a b c : List Char) (hab : listCharLe a b = true)
    (hbc : listCharLe b c = true) : listCharLe a c = true := by
  induction a generalizing b c with
  | nil => rfl
  | cons x xs ih =>
    cases b with
    | nil => simp [listCharLe] at hab
    | cons y ys =>
      cases c with
      | nil => simp [listCharLe] at hbc
      | cons z zs =>
        simp only [listCharLe] at hab hbc ⊢
        by_cases hxy : x = y
        · subst hxy
          rw [if_pos rfl] at hab
          by_cases hyz : x = z
          · subst hyz
            rw [if_pos rfl] at hbc ⊢
            exact ih ys zs hab hbc
          · rw [if_neg hyz] at hbc ⊢
            exact hbc
        · rw [if_neg hxy] at hab
          have hxylt : x < y := by simpa using hab
          by_cases hyz : y = z
          · subst hyz
            rw [if_neg hxy]
            simpa using hxylt
          · rw [if_neg hyz] at hbc
            have hyzlt : y < z := by simpa using hbc
            have hxz : x < z := lt_trans hxylt hyzlt
            rw [if_neg (ne_of_lt hxz)]
            simpa using hxz

instance : IsTotal String (fun a b => strLe a b = true) :=
  ⟨fun a b => listCharLe_total a.data b.data⟩

instance : IsTrans String (fun a b => strLe a b = true) :=
  ⟨fun a b c => listCharLe_trans a.data b.data c.data⟩

/-- C8: `GetCandidatesForAutocomplete(cur_word, true)` is exactly the
registered command names with `cur_word` as a case-sensitive prefix, sorted
lexicographically; with `is_first_word = false` it is exactly the registered
CVar names plus the keywords registered for the line's first-word command
that have `cur_word` as a prefix, likewise sorted — the prefix filtering
happens in this front-end caller, not in the registry lookup. -/
theorem c8_autocomplete_candidates (st : SFMLInGameConsoleState) (w : String) :
    ((GetCandidatesForAutocomplete st w true).Perm
        (st.commandTable.filter (fun nm => strStartsWith nm w))
      ∧ List.Sorted (fun a b => strLe a b = true) (GetCandidatesForAutocomplete st w true))
    ∧ ((GetCandidatesForAutocomplete st w false).Perm
        (st.cvarReadTable.filter (fun nm => strStartsWith nm w)
          ++ ((lookupAssoc st.cmdKeywords (GetFirstWord st.bufferText)).getD []).filter
              (fun kw => strStartsWith kw w))
      ∧ List.Sorted (fun a b => strLe a b = true) (GetCandidatesForAutocomplete st w false)) := by
  refine ⟨⟨?_, List.sorted_insertionSort _ _⟩, ⟨?_, List.sorted_insertionSort _ _⟩⟩
  · unfold GetCandidatesForAutocomplete
    simp only [if_true, Bool.not_true, Bool.false_eq_true, if_false,
      List.append_nil]
    exact List.perm_insertionSort _ _
  · unfold GetCandidatesForAutocomplete
    simp only [Bool.false_eq_true, if_false, Bool.not_false, if_true,
      List.nil_append]
    cases hk : lookupAssoc st.cmdKeywords (GetFirstWord st.bufferText) with
    | none =>
      simp only [Option.getD_none, List.filter_nil, List.append_nil]
      exact List.perm_insertionSort _ _
    | some kws =>
      simp only [Option.getD_some]
      exact List.perm_insertionSort _ _

theorem modifyLast_ne_nil {α : Type} (f : α → α) (l : List α) (h : l ≠ []) :
    modifyLast f l ≠ [] := by
  cases l with
  | nil => exact absurd rfl h
  | cons a t => cases t <;> simp [modifyLast]

theorem mem_modifyLast {α : Type} (f : α → α) (l : List α) (x : α)
    (hx : x ∈ modifyLast f l) : x ∈ l ∨ ∃ y ∈ l, x = f y := by
  induction l with
  | nil => simp [modifyLast] at hx
  | cons a t ih =>
    cases t with
    | nil =>
      simp only [modifyLast, List.mem_singleton] at hx
      right
      exact ⟨a, by simp, hx⟩
    | cons b r =>
      simp only [modifyLast] at hx
      rcases List.mem_cons.mp hx with h | h
      · left; simp [h]
      · rcases ih h with h1 | ⟨y, hy, hxy⟩
        · left; exact List.mem_cons_of_mem a h1
        · right; exact ⟨y, List.mem_cons_of_mem a hy, hxy⟩

theorem goodLines_modifyLast {ls : List BufLine} {f : BufLine → BufLine}
    (h : GoodLines ls) (hf : ∀ ln, ln.sequences ≠ [] → (f ln).sequences ≠ []) :
    GoodLines (modifyLast f ls) := by
  refine ⟨modifyLast_ne_nil f ls h.1, ?_⟩
  intro ln hln
  rcases mem_modifyLast f ls ln hln with h1 | ⟨y, hy, rfl⟩
  · exact h.2 ln h1
  · exact hf y (h.2 y hy)

theorem goodLines_append_line {ls : List BufLine} (h : GoodLines ls)
    (sqs : List TextSequence) (hs : sqs ≠ []) : GoodLines (ls ++ [⟨sqs⟩]) := by
  constructor
  · simp
  · intro ln hln
    rcases List.mem_append.mp hln with h1 | h1
    · exact h.2 ln h1
    · rw [List.mem_singleton.mp h1]
      exact hs

theorem ProcessANSICode_lines (st : ConsoleBuffer) (x : Int) :
    (ProcessANSICode st x).lines = st.lines := by
  unfold ProcessANSICode
  split <;> rfl

theorem overflow_good (st : ConsoleBuffer) (c : Char) (h : GoodLines st.lines) :
    GoodLines (overflow st c).lines := by
  unfold overflow
  split
  · split
    · exact h
    · split
      · refine goodLines_modifyLast ?_ (fun ln hln => by simp)
        split <;> simp [ProcessANSICode_lines, h]
      · split
        · exact h
        · split
          · simp only [ProcessANSICode_lines]
            exact h
          · exact h
  · split
    · exact h
    · split
      · exact goodLines_append_line h _ (by simp)
      · exact goodLines_modifyLast h
          (fun ln hln => modifyLast_ne_nil _ _ hln)

/-- C9: after any sequence of characters written through
`ConsoleBuffer::overflow`, interleaved with any number of `clear()` calls,
the buffer's `lines` vector is non-empty and every line's `sequences` vector
is non-empty — the unchecked indexing in `CurrentLine()`, `CurSequence()`
and `CurrentWord()` is always in bounds. -/
theorem c9_console_buffer_invariant (ops : List BufOp) :
    GoodLines ((ops.foldl applyBufOp ConsoleBuffer.init).lines) := by
  suffices hgen : ∀ (st : ConsoleBuffer), GoodLines st.lines →
      GoodLines ((ops.foldl applyBufOp st).lines) by
    refine hgen ConsoleBuffer.init ⟨by simp [ConsoleBuffer.init], ?_⟩
    intro ln hln
    simp only [ConsoleBuffer.init] at hln
    rw [List.mem_singleton.mp hln]
    simp
  induction ops with
  | nil => intro st h; exact h
  | cons op rest ih =>
    intro st h
    rw [List.foldl_cons]
    apply ih
    cases op with
    | write c => exact overflow_good st c h
    | clearBuf =>
      refine ⟨by simp [applyBufOp, ConsoleBuffer.clearBuf], ?_⟩
      intro ln hln
      simp only [applyBufOp, ConsoleBuffer.clearBuf] at hln
      rw [List.mem_singleton.mp hln]
      simp

/-- C5: `Execute` records the raw line to the history buffer iff the outcome
is non-`Empty`: an input that tokenizes to nothing yields `Empty` and leaves
the history untouched, and every other line — unknown identifiers and
failing parses included — is pushed exactly once. -/
theorem c5_history_records_iff_nonempty (eng : Engine) (line : String) :
    ((commandExecute eng line).outcome = .empty ↔ tokenize line = [])
    ∧ (tokenize line = [] → (commandExecute eng line).engine.history = eng.history)
    ∧ (tokenize line ≠ [] →
        (commandExecute eng line).engine.history =
          historyPush eng.historySize eng.history line) := by
  cases htok : tokenize line with
  | nil =>
    unfold commandExecute
    rw [htok]
    exact ⟨by simp, fun _ => rfl, fun hne => absurd rfl hne⟩
  | cons name rest =>
    simp only [commandExecute, htok]
    refine ⟨⟨?_, fun hc => absurd hc (by simp)⟩, fun hc => absurd hc (by simp), fun _ => ?_⟩
    · intro hout
      exfalso
      revert hout
      split
      · split <;> simp
      · split
        · split
          · simp
          · split <;> simp
        · simp
    · split
      · split <;> rfl
      · split
        · split
          · rfl
          · split <;> rfl
        · rfl

/-- Witness for C5: the empty line leaves history untouched; an unknown
identifier is still pushed. -/
theorem c5_history_records_iff_nonempty_witness :
    (commandExecute demoEngine "").outcome = .empty
    ∧ (commandExecute demoEngine "").engine.history = demoEngine.history
    ∧ (commandExecute demoEngine "bogusname").engine.history =
        historyPush 100 [] "bogusname" := by
  refine ⟨(c5_history_records_iff_nonempty demoEngine "").1.mpr rfl,
    (c5_history_records_iff_nonempty demoEngine "").2.1 rfl,
    (c5_history_records_iff_nonempty demoEngine "bogusname").2.2 (by decide)⟩

/-- C1: dispatch order of `Execute` — a first token naming a command goes to
that command's `TypedInvoker` with the remaining tokens and the CVar
registry is never consulted (the result is unchanged under any CVar
registry, and the CVar registry is not modified); a first token naming a
CVar (and no command) sets the variable from the joined remaining tokens
when non-empty, and with none writes `name = value` to the sink with
outcome `VarRead`; a token naming neither yields `UnknownIdentifier`. -/
theorem c1_execute_dispatch (eng : Engine) (line : String) (name : String)
    (rest : List String) (htok : tokenize line = name :: rest) :
    (∀ inv, lookupAssoc eng.commands name = some inv →
       ((commandExecute eng line).outcome =
          (match tryInvoke inv rest with
           | .ok _ => Outcome.commandRan
           | .error e => Outcome.commandFailed e)
        ∧ (∀ out, tryInvoke inv rest = .ok out → (commandExecute eng line).sinkOut = out)
        ∧ (commandExecute eng line).engine.cvars = eng.cvars
        ∧ ∀ cvs, (commandExecute { eng with cvars := cvs } line).outcome =
            (commandExecute eng line).outcome))
    ∧ (lookupAssoc eng.commands name = none →
       (∀ v, lookupAssoc eng.cvars name = some v →
          (rest = [] →
             (commandExecute eng line).outcome = .varRead
             ∧ (commandExecute eng line).sinkOut = [name ++ " = " ++ getAsString v])
          ∧ (rest ≠ [] →
             (commandExecute eng line).engine.cvars =
               setAssoc eng.cvars name (setFromString v (String.intercalate " " rest)).1
             ∧ (commandExecute eng line).outcome =
                 (if (setFromString v (String.intercalate " " rest)).2
                  then Outcome.varSet else Outcome.varSetError)))
       ∧ (lookupAssoc eng.cvars name = none →
            (commandExecute eng line).outcome = .unknownIdentifier name)) := by
  constructor
  · intro inv hinv
    have hres : ∀ (e2 : Engine), e2.commands = eng.commands →
        commandExecute e2 line =
          match tryInvoke inv rest with
          | .ok out =>
            ⟨.commandRan,
             { e2 with history := historyPush e2.historySize e2.history line }, out⟩
          | .error e =>
            ⟨.commandFailed e,
             { e2 with history := historyPush e2.historySize e2.history line },
             [diagnostic e]⟩ := by
      intro e2 he2
      simp only [commandExecute, htok, he2, hinv]
    have ha := hres eng rfl
    refine ⟨?_, ?_, ?_, ?_⟩
    · rw [ha]; cases tryInvoke inv rest <;> rfl
    · intro out hout; rw [ha, hout]
    · rw [ha]; cases tryInvoke inv rest <;> rfl
    · intro cvs
      rw [hres { eng with cvars := cvs } rfl, ha]
      cases tryInvoke inv rest <;> rfl
  · intro hnone
    constructor
    · intro v hv
      constructor
      · intro hrest
        subst hrest
        refine ⟨?_, ?_⟩ <;> simp [commandExecute, htok, hnone, hv]
      · intro hrest
        cases rest with
        | nil => exact absurd rfl hrest
        | cons t ts =>
          simp only [commandExecute, htok, hnone, hv]
          by_cases hset : (setFromString v (String.intercalate " " (t :: ts))).2 = true
          · rw [if_pos hset, if_pos hset]
            exact ⟨rfl, rfl⟩
          · rw [if_neg hset, if_neg hset]
            exact ⟨rfl, rfl⟩
    · intro hv
      simp only [commandExecute, htok, hnone, hv]

theorem extractString_fail_unchanged (st : IStream) (cur : String) :
    (extractString st cur).1.fail = true → (extractString st cur).2 = cur := by
  unfold extractString
  split
  · intro _; rfl
  · split
    · intro _; rfl
    · intro h; simp at h

/-- C4 counterexample: setting the demo's composite CVar from the token
`"7"` fails (the name field is missing) yet overwrites the id field: the
bound storage is not left as it was. -/
theorem c4_set_failure_counterexample :
    (setFromString (CVarValue.vStruct 2 "custom") "7").2 = false
    ∧ (setFromString (CVarValue.vStruct 2 "custom") "7").1 ≠ CVarValue.vStruct 2 "custom" := by
  decide

/-- C4 (amended): a failed `SetFromString` reports the parse error, but the
storage reflects the direct stream extraction: a binding whose extraction
fails before writing anything (the string binding) is left unchanged, while
a composite binding keeps the fields extracted before the failure point —
its name field survives, but its id field may have been overwritten (as at
the counterexample, where token `"7"` leaves id = 7). -/
theorem c4_set_failure_amended :
    (∀ (w s : String), (setFromString (CVarValue.vString w) s).2 = false →
       (setFromString (CVarValue.vString w) s).1 = CVarValue.vString w)
    ∧ (∀ (i : Int) (nm : String) (t : String),
        (setFromString (CVarValue.vStruct i nm) t).2 = false →
        ∃ v, (setFromString (CVarValue.vStruct i nm) t).1 = CVarValue.vStruct v nm)
    ∧ (setFromString (CVarValue.vStruct 2 "custom") "7").1 = CVarValue.vStruct 7 "custom" := by
  refine ⟨?_, ?_, by decide⟩
  · intro w s h
    simp only [setFromString] at h ⊢
    have hf : (extractString (IStream.ofString s) w).1.fail = true := by
      revert h
      cases (extractString (IStream.ofString s) w).1.fail <;> simp
    rw [extractString_fail_unchanged (IStream.ofString s) w hf]
  · intro i nm t h
    simp only [setFromString, myStructExtract] at h ⊢
    have hf : (extractString (extractInt (IStream.ofString t) i).1 nm).1.fail = true := by
      revert h
      cases (extractString (extractInt (IStream.ofString t) i).1 nm).1.fail <;> simp
    exact ⟨_, by rw [extractString_fail_unchanged _ _ hf]⟩

/-- Witness for the amended C4: a failed set of the string binding (empty
token) leaves it unchanged. -/
theorem c4_set_failure_amended_witness :
    (setFromString (CVarValue.vString "a") "").2 = false
    ∧ (setFromString (CVarValue.vString "a") "").1 = CVarValue.vString "a" :=
  ⟨by decide, c4_set_failure_amended.1 "a" "" (by decide)⟩

theorem digitChar_spec (d : Nat) (hd : d < 10) :
    (digitChar d).isDigit = true ∧ isWsChar (digitChar d) = false
    ∧ digitChar d ≠ '-' ∧ digitChar d ≠ '+' ∧ digitVal (digitChar d) = d := by
  interval_cases d <;> exact ⟨by decide, by decide, by decide, by decide, by decide⟩

theorem natReprAux_spec : ∀ (fuel n : Nat), n < fuel →
    natReprAux fuel n ≠ []
    ∧ (∀ c ∈ natReprAux fuel n, ∃ d, d < 10 ∧ c = digitChar d)
    ∧ (natReprAux fuel n).foldl (fun a ch => 10 * a + digitVal ch) 0 = n := by
  intro fuel
  induction fuel with
  | zero => intro n hn; omega
  | succ f ih =>
    intro n hn
    by_cases h10 : n < 10
    · refine ⟨by simp [natReprAux, h10], ?_, ?_⟩
      · intro c hc
        simp only [natReprAux, if_pos h10, List.mem_singleton] at hc
        exact ⟨n, h10, hc⟩
      · simp only [natReprAux, if_pos h10, List.foldl_cons, List.foldl_nil]
        rw [(digitChar_spec n h10).2.2.2.2]
        omega
    · have hdiv : n / 10 < f := by
        have := Nat.div_lt_self (by omega : 0 < n) (by omega : 1 < 10)
        omega
      obtain ⟨hne, hdig, hfold⟩ := ih (n / 10) hdiv
      refine ⟨by simp [natReprAux, h10], ?_, ?_⟩
      · intro c hc
        simp only [natReprAux, if_neg h10, List.mem_append, List.mem_singleton] at hc
        rcases hc with hc | hc
        · exact hdig c hc
        · exact ⟨n % 10, Nat.mod_lt n (by omega), hc⟩
      · simp only [natReprAux, if_neg h10]
        rw [List.foldl_append, List.foldl_cons, List.foldl_nil, hfold,
          (digitChar_spec (n % 10) (Nat.mod_lt n (by omega))).2.2.2.2]
        omega

theorem takeWhile_eq_self_of_all {α : Type} (p : α → Bool) (l : List α)
    (h : ∀ c ∈ l, p c = true) : l.takeWhile p = l := by
  induction l with
  | nil => rfl
  | cons a t ih =>
    rw [List.takeWhile_cons, if_pos (h a (List.mem_cons_self a t)),
      ih (fun c hc => h c (List.mem_cons_of_mem a hc))]

theorem head_of_dropWhile_not {α : Type} (p : α → Bool) (l : List α) (c : α)
    (cs : List α) (h : l.dropWhile p = c :: cs) : p c = false := by
  induction l with
  | nil => simp at h
  | cons a t ih =>
    rw [List.dropWhile_cons] at h
    by_cases hpa : p a = true
    · rw [if_pos hpa] at h
      exact ih h
    · rw [if_neg hpa] at h
      injection h with h1 _
      rw [← h1]
      cases hv : p a with
      | true => exact absurd hv hpa
      | false => rfl

theorem extractIntDigits_all (l : List Char) (hne : l ≠ [])
    (hdig : ∀ c ∈ l, ∃ d, d < 10 ∧ c = digitChar d) (neg : Bool) :
    extractIntDigits l neg =
      (⟨[], false⟩,
       if neg then -((l.foldl (fun a ch => 10 * a + digitVal ch) 0 : Nat) : Int)
       else ((l.foldl (fun a ch => 10 * a + digitVal ch) 0 : Nat) : Int)) := by
  have halldig : ∀ c ∈ l, c.isDigit = true := by
    intro c hc
    obtain ⟨d, hd10, rfl⟩ := hdig c hc
    exact (digitChar_spec d hd10).1
  unfold extractIntDigits
  rw [takeWhile_eq_self_of_all Char.isDigit l halldig]
  rw [if_neg (by simp [List.isEmpty_iff, hne])]
  rw [List.drop_length]

theorem extractInt_digitsList (l : List Char) (hne : l ≠ [])
    (hdig : ∀ c ∈ l, ∃ d, d < 10 ∧ c = digitChar d) (cur : Int) :
    extractInt ⟨l, false⟩ cur =
      (⟨[], false⟩, ((l.foldl (fun a ch => 10 * a + digitVal ch) 0 : Nat) : Int)) := by
  obtain ⟨hd, tl, rfl⟩ := List.exists_cons_of_ne_nil hne
  obtain ⟨d, hd10, hdc⟩ := hdig hd (List.mem_cons_self hd tl)
  have hprops := digitChar_spec d hd10
  unfold extractInt
  rw [if_neg (by simp)]
  have hws : isWsChar hd = false := by rw [hdc]; exact hprops.2.1
  simp only [List.dropWhile_cons, hws, Bool.false_eq_true, if_false]
  rw [if_neg (by rw [hdc]; exact hprops.2.2.1), if_neg (by rw [hdc]; exact hprops.2.2.2.1)]
  exact extractIntDigits_all (hd :: tl) hne hdig false

theorem extractInt_intRepr (m cur : Int) :
    extractInt (IStream.ofString (intRepr m)) cur = (⟨[], false⟩, m) := by
  have hspec := natReprAux_spec (m.natAbs + 1) m.natAbs (Nat.lt_succ_self _)
  by_cases hm : m < 0
  · show extractInt ⟨intReprChars m, false⟩ cur = _
    unfold intReprChars
    rw [if_pos hm]
    unfold extractInt
    rw [if_neg (by simp)]
    simp only [List.dropWhile_cons, show isWsChar '-' = false from rfl,
      Bool.false_eq_true, if_false]
    rw [if_pos trivial]
    unfold natReprChars
    rw [extractIntDigits_all _ hspec.1 hspec.2.1 true, hspec.2.2]
    have hval : -((m.natAbs : Nat) : Int) = m := by omega
    rw [if_pos rfl, hval]
  · show extractInt ⟨intReprChars m, false⟩ cur = _
    unfold intReprChars
    rw [if_neg hm]
    have htn : m.toNat = m.natAbs := by omega
    rw [htn]
    unfold natReprChars
    rw [extractInt_digitsList _ hspec.1 hspec.2.1 cur, hspec.2.2]
    have : ((m.natAbs : Nat) : Int) = m := by omega
    rw [this]

theorem extractString_word (l : List Char) (hne : l ≠ [])
    (hws : ∀ c ∈ l, isWsChar c = false) (cur : String) :
    extractString ⟨l, false⟩ cur = (⟨[], false⟩, String.mk l) := by
  obtain ⟨hd, tl, rfl⟩ := List.exists_cons_of_ne_nil hne
  unfold extractString
  rw [if_neg (by simp)]
  simp only [List.dropWhile_cons, hws hd (List.mem_cons_self hd tl),
    Bool.false_eq_true, if_false]
  rw [takeWhile_eq_self_of_all _ _ (fun c hc => by rw [hws c hc]; rfl)]
  rw [List.drop_length]

theorem extractString_shape (st : IStream) (cur : String) :
    (extractString st cur).1.fail = true
    ∨ ∃ l, (extractString st cur).2 = String.mk l ∧ l ≠ []
        ∧ ∀ c ∈ l, isWsChar c = false := by
  unfold extractString
  split
  · left; assumption
  · split
    · left; rfl
    · right
      rename_i heq
      have hc := head_of_dropWhile_not isWsChar st.input _ _ heq
      refine ⟨_, rfl, ?_, ?_⟩
      · rw [List.takeWhile_cons]
        simp [hc]
      · intro ch hch
        have := List.mem_takeWhile_imp hch
        simpa using this

/-- C6 counterexample: the demo's `MyStruct` formats as
`"ID: 5, Name: bob"`, which its own extractor cannot re-parse: the
round-trip of the composite binding fails and does not restore the value. -/
theorem c6_roundtrip_counterexample :
    setFromString (CVarValue.vStruct 1 "a") "5 bob" = (CVarValue.vStruct 5 "bob", true)
    ∧ getAsString (CVarValue.vStruct 5 "bob") = "ID: 5, Name: bob"
    ∧ (setFromString (CVarValue.vStruct 5 "bob")
        (getAsString (CVarValue.vStruct 5 "bob"))).2 = false
    ∧ (setFromString (CVarValue.vStruct 5 "bob")
        (getAsString (CVarValue.vStruct 5 "bob"))).1 ≠ CVarValue.vStruct 5 "bob" := by
  decide

/-- C6 (amended): for the scalar bindings (`int` and `string`), any accepted
`SetFromString(s)` followed by `GetAsString()` yields a string that
re-parses to the same value; the user-defined composite binding is excluded
because its insertion operator emits labels (`ID: `, `, Name: `) that its
extraction operator does not accept. -/
theorem c6_roundtrip_amended (v : CVarValue) (s : String)
    (hscalar : ∀ i nm, v ≠ CVarValue.vStruct i nm)
    (hok : (setFromString v s).2 = true) :
    (setFromString (setFromString v s).1 (getAsString (setFromString v s).1)).2 = true
    ∧ (setFromString (setFromString v s).1 (getAsString (setFromString v s).1)).1 =
        (setFromString v s).1 := by
  cases v with
  | vStruct i nm => exact absurd rfl (hscalar i nm)
  | vInt n =>
    simp only [setFromString, getAsString]
    rw [extractInt_intRepr]
    exact ⟨rfl, rfl⟩
  | vString w =>
    simp only [setFromString] at hok ⊢
    have hf : (extractString (IStream.ofString s) w).1.fail = false := by
      revert hok
      cases (extractString (IStream.ofString s) w).1.fail <;> simp
    rcases extractString_shape (IStream.ofString s) w with hbad | ⟨l, hl, hlne, hlws⟩
    · rw [hf] at hbad
      cases hbad
    · simp only [getAsString, hl]
      rw [show IStream.ofString (String.mk l) = ⟨l, false⟩ from rfl]
      rw [extractString_word l hlne hlws]
      exact ⟨rfl, rfl⟩

/-- Witness for the amended C6: the int binding round-trips through
`GetAsString`. -/
theorem c6_roundtrip_amended_witness :
    (setFromString (setFromString (CVarValue.vInt 5) "10").1
        (getAsString (setFromString (CVarValue.vInt 5) "10").1)).2 = true
    ∧ (setFromString (setFromString (CVarValue.vInt 5) "10").1
        (getAsString (setFromString (CVarValue.vInt 5) "10").1)).1 =
        (setFromString (CVarValue.vInt 5) "10").1 :=
  c6_roundtrip_amended (CVarValue.vInt 5) "10"
    (fun i nm h => CVarValue.noConfusion h) (by decide)

theorem parseArgsFrom_first_fail (i : Nat) (k : Nat) (ps : List PType)
    (ts : List String) (hlen : ps.length = ts.length)
    (hall : ∀ j, j < i → ∀ pj tj, ps.get? j = some pj → ts.get? j = some tj →
      (parseArg pj tj).isSome)
    (pi : PType) (ti : String) (hpi : ps.get? i = some pi)
    (hti : ts.get? i = some ti) (hfail : parseArg pi ti = none) :
    parseArgsFrom k ps ts = .error (.argumentParseError (k + i) ti) := by
  induction i generalizing k ps ts with
  | zero =>
    cases ps with
    | nil => simp at hpi
    | cons p0 ps2 =>
      cases ts with
      | nil => simp at hti
      | cons t0 ts2 =>
        simp only [List.get?] at hpi hti
        injection hpi with hpi
        injection hti with hti
        subst hpi
        subst hti
        simp only [parseArgsFrom, hfail, Nat.add_zero]
  | succ i2 ih =>
    cases ps with
    | nil => simp at hpi
    | cons p0 ps2 =>
      cases ts with
      | nil => simp at hti
      | cons t0 ts2 =>
        have h0 := hall 0 (Nat.succ_pos i2) p0 t0 rfl rfl
        rcases Option.isSome_iff_exists.mp h0 with ⟨a, ha⟩
        have hrec := ih (k + 1) ps2 ts2 (by simpa using hlen)
          (fun j hj pj tj hpj htj => hall (j + 1) (by omega) pj tj hpj htj)
          (by simpa using hpi) (by simpa using hti)
        simp only [parseArgsFrom, ha, hrec]
        have he : k + 1 + i2 = k + (i2 + 1) := by omega
        rw [he]

/-- C3: `TryInvoke` fails with `ArityMismatch{expected, got}` on any token
list of the wrong length, and with `ArgumentParseError{index, raw}` for the
first token that fails conversion; in both cases the underlying callable is
not invoked at all (its sink output is empty). -/
theorem c3_tryInvoke_errors (inv : TypedInvoker) (ts : List String) :
    (ts.length ≠ inv.params.length →
       tryInvoke inv ts = .error (.arityMismatch inv.params.length ts.length)
       ∧ invokerOutput inv ts = [])
    ∧ (∀ (i : Nat) (pi : PType) (ti : String),
       ts.length = inv.params.length →
       (∀ j, j < i → ∀ pj tj, inv.params.get? j = some pj → ts.get? j = some tj →
         (parseArg pj tj).isSome) →
       inv.params.get? i = some pi → ts.get? i = some ti → parseArg pi ti = none →
       tryInvoke inv ts = .error (.argumentParseError i ti)
       ∧ invokerOutput inv ts = []) := by
  constructor
  · intro hlen
    have h1 : tryInvoke inv ts = .error (.arityMismatch inv.params.length ts.length) := by
      unfold tryInvoke
      rw [if_pos hlen]
    exact ⟨h1, by unfold invokerOutput; rw [h1]⟩
  · intro i pi ti hlen hall hpi hti hfail
    have h1 : tryInvoke inv ts = .error (.argumentParseError i ti) := by
      unfold tryInvoke
      rw [if_neg (fun h => h hlen)]
      rw [parseArgsFrom_first_fail i 0 inv.params ts hlen.symm hall pi ti hpi hti hfail]
      simp
    exact ⟨h1, by unfold invokerOutput; rw [h1]⟩

/-- Witness for C3: `sum 2` is an arity mismatch; `sum x 3` fails parsing
its first token; neither produces handler output. -/
theorem c3_tryInvoke_errors_witness :
    tryInvoke sumInvoker ["2"] = .error (.arityMismatch 2 1)
    ∧ invokerOutput sumInvoker ["2"] = []
    ∧ tryInvoke sumInvoker ["x", "3"] = .error (.argumentParseError 0 "x")
    ∧ invokerOutput sumInvoker ["x", "3"] = [] := by
  have h1 := (c3_tryInvoke_errors sumInvoker ["2"]).1 (by decide)
  have h2 := (c3_tryInvoke_errors sumInvoker ["x", "3"]).2 0 .pInt "x" (by decide)
    (fun j hj => absurd hj (Nat.not_lt_zero j)) rfl rfl (by decide)
  exact ⟨h1.1, h1.2, h2.1, h2.2⟩

/-- Witness for C1: in the demo engine, `sum 2 3` runs the command and
writes `5`; `varInt` (no arguments) reads the variable; `bogusname` is
unknown. -/
theorem c1_execute_dispatch_witness :
    (commandExecute demoEngine "sum 2 3").outcome = .commandRan
    ∧ (commandExecute demoEngine "sum 2 3").sinkOut = ["5"]
    ∧ (commandExecute demoEngine "varInt").outcome = .varRead
    ∧ (commandExecute demoEngine "varInt").sinkOut = ["varInt = 1"]
    ∧ (commandExecute demoEngine "bogusname").outcome = .unknownIdentifier "bogusname" := by
  have hsum := (c1_execute_dispatch demoEngine "sum 2 3" "sum" ["2", "3"] (by decide)).1
    sumInvoker rfl
  have hvar := ((c1_execute_dispatch demoEngine "varInt" "varInt" [] (by decide)).2
    rfl).1 (.vInt 1) rfl
  have hbogus := ((c1_execute_dispatch demoEngine "bogusname" "bogusname" [] (by decide)).2
    rfl).2 rfl
  exact ⟨hsum.1, hsum.2.1 ["5"] rfl, (hvar.1 rfl).1, (hvar.1 rfl).2, hbogus⟩
